import Mathlib

/-!
Verification of the annotation-merge-and-aggregate core of the
parkinsons-celltype-enrichment repository.

The definitions below are a shallow embedding of the Python source:

* `mergeRows` and the conflict-column functions embed
  `LDSCPipeline._merge_annotations` (ldsc_analysis_system.py, lines 1054-1121):
  a pandas left join of the enhancer table onto the baseline table keyed on
  (CHR, BP, SNP), with `fillna(0)` on the new enhancer columns, preceded by a
  two-tier drop of brain-related baseline columns.
* `extractEnhancerEnrichment` embeds the enrichment part of
  `extract_correct_results` (run_correct_ldsc_single.py, lines 154-159).
* `parseLdscTotalH2` embeds the total-heritability part of
  `LDSCAnalyzer._parse_ldsc_results` (ldsc_analysis_system.py, lines 423-454).
* `calcWeightedEnrichment`, `combineEnrichment` and `combinedPValue` embed
  `LDSCPipeline._calculate_celltype_weighted_enrichment`
  (ldsc_analysis_system.py, lines 1385-1424).
* `aggregateBonferroni` embeds the Bonferroni step of
  `LDSCResultsAggregator.aggregate_results` (ldsc_analysis_system.py,
  lines 542-549).

Python strings are modelled as Lean `String`, manipulated through structural
(fuel-based) recursions over `List Char` so that all definitions evaluate by
kernel reduction.  Python floats are modelled as `ℚ` (exact arithmetic);
transcendental library calls (`np.log`, `scipy.stats.chi2.cdf`) are modelled
over `ℝ` by their mathematical definitions.  A Python function that returns
`None` on failure is modelled as an `Option`-valued function returning `none`.
-/

namespace LDSC

/-! ### Python string primitives, modelled over `List Char` -/

/-- Whitespace test used by Python `str.strip` and `str.split()`. -/
def isSpaceChar (c : Char) : Bool :=
  c = ' ' || c = '\t' || c = '\n' || c = '\r'

/-- Python `str.strip()`: drop whitespace on both ends. -/
def stripChars (s : List Char) : List Char :=
  ((s.dropWhile isSpaceChar).reverse.dropWhile isSpaceChar).reverse

/-- Test whether `p` is a prefix of `s` (character lists). -/
def isPrefixList : List Char → List Char → Bool
  | [], _ => true
  | _ :: _, [] => false
  | a :: as, b :: bs => a = b && isPrefixList as bs

/-- Test whether pattern `t` occurs as a contiguous substring of `s`
(Python `t in s`). -/
def occursIn (t : List Char) : List Char → Bool
  | [] => isPrefixList t []
  | c :: rest => isPrefixList t (c :: rest) || occursIn t rest

/-- Python `str.split()` with no argument: split on runs of whitespace,
discarding empty tokens.  Structural recursion on a fuel argument; the fuel
is always at least the length of the remaining list, so the fuel-exhausted
branch is never reached when called through `splitWs`. -/
def splitWsFuel : Nat → List Char → List (List Char)
  | 0, _ => []
  | _ + 1, [] => []
  | n + 1, c :: rest =>
    if isSpaceChar c then
      splitWsFuel n rest
    else
      (c :: rest.takeWhile (fun d => !isSpaceChar d)) ::
        splitWsFuel n (rest.dropWhile (fun d => !isSpaceChar d))

/-- Python `str.split()` (whitespace tokenisation). -/
def splitWs (s : List Char) : List (List Char) :=
  splitWsFuel s.length s

/-- Python `str.split(sep)` for a non-empty separator: fuel-based scan.
`acc` holds the reversed characters of the current fragment. -/
def splitOnFuel (pat : List Char) : Nat → List Char → List Char → List (List Char)
  | _, [], acc => [acc.reverse]
  | 0, s, acc => [acc.reverse ++ s]
  | n + 1, c :: rest, acc =>
    if !pat.isEmpty && isPrefixList pat (c :: rest) then
      acc.reverse :: splitOnFuel pat n (List.drop (pat.length - 1) rest) []
    else
      splitOnFuel pat n rest (c :: acc)

/-- Python `str.split(sep)`. -/
def splitOnList (pat s : List Char) : List (List Char) :=
  splitOnFuel pat s.length s []

/-- Python `str.replace(pat, '')`: remove every occurrence of `pat`. -/
def removeAll (pat s : List Char) : List Char :=
  (splitOnList pat s).foldr (· ++ ·) []

/-- Python `str.lower()` (ASCII casefolding, as used on column names). -/
def lowerChars (s : String) : List Char :=
  s.toList.map Char.toLower

/-- Digit test. -/
def isDigitChar (c : Char) : Bool :=
  '0' ≤ c && c ≤ '9'

/-- Numeric value of a digit string (most significant first). -/
def digitsToNat (s : List Char) : Nat :=
  s.foldl (fun n c => 10 * n + (c.toNat - 48)) 0

/-- Python `float(s)` on a plain unsigned decimal literal: an integer part,
optionally followed by a dot and a fraction part, with at least one digit
overall.  (Exponents and the words inf/nan, which never occur in the reports
considered here, are not modelled.) -/
def parseUnsigned? (s : List Char) : Option ℚ :=
  let intPart := s.takeWhile isDigitChar
  let rest := s.dropWhile isDigitChar
  match rest with
  | [] => if intPart.isEmpty then none else some (digitsToNat intPart)
  | '.' :: frac =>
    if frac.all isDigitChar && !(intPart.isEmpty && frac.isEmpty) then
      some ((digitsToNat intPart : ℚ) + (digitsToNat frac : ℚ) / (10 ^ frac.length))
    else none
  | _ => none

/-- Python `float(s)` on a plain decimal literal with optional sign. -/
def parseDecimal? (s : List Char) : Option ℚ :=
  match s with
  | '-' :: rest => (parseUnsigned? rest).map (fun q => -q)
  | '+' :: rest => parseUnsigned? rest
  | _ => parseUnsigned? s

/-! ### Annotation merge (`LDSCPipeline._merge_annotations`) -/

/-- The (CHR, BP, SNP) join key of one variant row. -/
structure VariantKey where
  chr : Int
  bp : Int
  snp : String
  deriving DecidableEq

/-- One table row: its join key and its category values in column order. -/
structure AnnotRow where
  key : VariantKey
  values : List ℚ
  deriving DecidableEq

/-- Coordinate columns that are never dropped (source lines 1070 and 1086). -/
def coordCols : List String := ["CHR", "BP", "SNP", "CM"]

/-- The conflict keyword set (source line 1069). -/
def brainTerms : List String := ["brain", "neuro", "h3k27ac", "h3k4me1", "dnase"]

/-- Case-insensitive substring match of a column name against the conflict
keyword set (source line 1069). -/
def isBrainRelated (col : String) : Bool :=
  brainTerms.any (fun t => occursIn t.toList (lowerChars col))

/-- Name-based conflict detection (source lines 1066-1071): the baseline
columns whose lowered name contains a conflict keyword, coordinate columns
excluded. -/
def brainRelatedCols (cols : List String) : List String :=
  cols.filter (fun c => isBrainRelated c && decide (c ∉ coordCols))

/-- Positional fallback index list (source line 1084). -/
def brainIndices : List Nat := [15, 16, 17, 18, 19, 20, 25, 26, 27, 28, 45, 46, 47, 48]

/-- Positional fallback (source lines 1081-1087): the names found at the
fallback indices, coordinate columns excluded. -/
def fallbackCols (cols : List String) : List String :=
  brainIndices.filterMap (fun i =>
    match cols.get? i with
    | some c => if c ∈ coordCols then none else some c
    | none => none)

/-- The columns dropped from the baseline table (source lines 1066-1091):
the name-based detection when it finds anything, the positional fallback
otherwise. -/
def colsToDrop (cols : List String) : List String :=
  if brainRelatedCols cols = [] then fallbackCols cols else brainRelatedCols cols

/-- The baseline columns surviving `df.drop(columns=colsToDrop)`. -/
def keepCols (cols : List String) : List String :=
  cols.filter (fun c => decide (c ∉ colsToDrop cols))

/-- Left join of the enhancer rows onto the baseline rows keyed on
(CHR, BP, SNP), followed by `fillna(0)` on the `nAdd` new enhancer columns
(source lines 1099-1108).  A baseline row with no key match receives the
value 0 in every new column; a baseline row with several matches is repeated
once per match, as in pandas. -/
def mergeRows (add : List AnnotRow) (nAdd : Nat) : List AnnotRow → List AnnotRow
  | [] => []
  | b :: bs =>
    (match add.filter (fun a => decide (a.key = b.key)) with
      | [] => [⟨b.key, b.values ++ List.replicate nAdd 0⟩]
      | m :: ms => (m :: ms).map (fun a => ⟨b.key, b.values ++ a.values⟩)) ++
      mergeRows add nAdd bs

/-! ### Regression report parsing -/

/-- The label of the per-category enrichment line. -/
def enrichLabel : String := "Enrichment:"

/-- One step of `extract_correct_results` (run_correct_ldsc_single.py,
lines 154-158): when the stripped line starts with the label and the line
carries at least 98 whitespace-separated tokens after removing the label,
the extracted token is the last one; otherwise nothing is extracted. -/
def enrichLineTok? (line : String) : Option (List Char) :=
  if isPrefixList enrichLabel.toList (stripChars line.toList) then
    let toks := splitWs (removeAll enrichLabel.toList line.toList)
    if 98 ≤ toks.length then toks.getLast? else none
  else none

/-- Enrichment extraction of `extract_correct_results`: the loop over the
report lines keeps `float` of the token of the last qualifying line.  A
malformed final token, on which the unguarded Python `float` call would
raise, is modelled as `none`. -/
def extractEnhancerEnrichment (lines : List String) : Option ℚ :=
  lines.foldl
    (fun acc line =>
      match enrichLineTok? line with
      | some t => parseDecimal? t
      | none => acc)
    none

/-- Following the spec's words, for the refinement comparison in claim C1:
the target category's enrichment is the numeric value of the last column of
the (last) Enrichment line, whatever the category count. -/
def specLastEnrichment (lines : List String) : Option ℚ :=
  lines.foldl
    (fun acc line =>
      if isPrefixList enrichLabel.toList (stripChars line.toList) then
        match (splitWs (removeAll enrichLabel.toList line.toList)).getLast? with
        | some t => parseDecimal? t
        | none => acc
      else acc)
    none

/-- The label of the mandatory total-heritability line. -/
def h2Label : String := "Total Observed scale h2:"

/-- Numeric extraction from the selected h2 line (`_parse_ldsc_results`,
lines 430-446): the text after the label up to an opening parenthesis is the
estimate, the text inside the parentheses is the standard error ('0' when
there is no parenthesis); a float conversion failure sets both fields to
`None` (lines 447-450).  The fallback branches at lines 435-440 are
unreachable because the selected line always contains the label, and the
`none` arm below is likewise unreachable for the same reason. -/
def parseH2Line (l : String) : Option ℚ × Option ℚ :=
  match (splitOnList h2Label.toList l.toList).get? 1 with
  | none => (none, none)
  | some tail =>
    let h2part := stripChars ((splitOnList ['('] tail).headI)
    let separt :=
      match (splitOnList ['('] tail).get? 1 with
      | some inside => stripChars ((splitOnList [')'] inside).headI)
      | none => ['0']
    match parseDecimal? h2part, parseDecimal? separt with
    | some v, some s => (some v, some s)
    | _, _ => (none, none)

/-- Total-heritability parsing of `_parse_ldsc_results` (lines 423-454):
when no line of the report contains the label, both fields are `None` and
the parse completes normally; otherwise the last line containing it is
parsed. -/
def parseLdscTotalH2 (lines : List String) : Option ℚ × Option ℚ :=
  match (lines.filter (fun l => occursIn h2Label.toList l.toList)).getLast? with
  | none => (none, none)
  | some l => parseH2Line l

/-! ### Cell-type weighted enrichment combiner -/

/-- One parsed table row of `_calculate_celltype_weighted_enrichment`
(lines 1368-1381): each field is `None` when its token failed `_is_float`. -/
structure EnrichRow where
  enrichment : Option ℚ
  enrichment_se : Option ℚ
  enrichment_p : Option ℚ
  deriving DecidableEq

/-- A row whose enrichment and standard error are both present. -/
structure ValidEntry where
  e : ℚ
  se : ℚ
  p : Option ℚ
  deriving DecidableEq

/-- `valid_enrichments` (line 1390): the rows with both the enrichment and
its standard error present. -/
def validEnrichments (ds : List EnrichRow) : List ValidEntry :=
  ds.filterMap (fun d =>
    match d.enrichment, d.enrichment_se with
    | some e, some s => some ⟨e, s, d.enrichment_p⟩
    | _, _ => none)

/-- The accumulation loop of lines 1396-1404: the running pair
(total_weight, weighted_enrichment); a row contributes `1/se²` and `e·(1/se²)`
exactly when `se > 0`. -/
def weightSums (vs : List ValidEntry) : ℚ × ℚ :=
  vs.foldl
    (fun acc d =>
      if 0 < d.se then (acc.1 + 1 / d.se ^ 2, acc.2 + d.e * (1 / d.se ^ 2))
      else acc)
    (0, 0)

/-- Lines 1406-1411: `None` when the total weight is zero, otherwise the
weighted mean together with the square of the reported standard error (the
code reports `final_se = (1/total_weight) ** 0.5`). -/
def combineEnrichment (vs : List ValidEntry) : Option (ℚ × ℚ) :=
  let tw := (weightSums vs).1
  if tw = 0 then none else some ((weightSums vs).2 / tw, 1 / tw)

/-- The reported combined standard error, over `ℝ`. -/
noncomputable def combinedSE (vs : List ValidEntry) : Option ℝ :=
  (combineEnrichment vs).map (fun r => Real.sqrt ((r.2 : ℚ) : ℝ))

/-- `valid_ps` (line 1417): the p-values that are present and strictly
positive. -/
def validPs (vs : List ValidEntry) : List ℚ :=
  vs.filterMap (fun d =>
    match d.p with
    | some p => if 0 < p then some p else none
    | none => none)

/-- Survival function (upper-tail probability) of the chi-square distribution
with an even number `df` of degrees of freedom, by its closed form
exp(-x/2) · Σ_{j < df/2} (x/2)^j / j!.  This is the mathematical model of the
external `scipy.stats.chi2` collaborator at even `df`, the only case the
combiner uses (`df = 2 · len(valid_ps)`). -/
noncomputable def chi2SfEven (df : Nat) (x : ℝ) : ℝ :=
  Real.exp (-(x / 2)) *
    ((List.range (df / 2)).map (fun j => (x / 2) ^ j / (Nat.factorial j : ℝ))).sum

/-- Model of `scipy.stats.chi2.cdf` at even degrees of freedom. -/
noncomputable def chi2CdfEven (df : Nat) (x : ℝ) : ℝ :=
  1 - chi2SfEven df x

/-- Fisher combination of lines 1417-1424: with the valid p-values p₁…p_k,
`combined_p = 1 - chi2.cdf(-2·Σ ln pᵢ, df = 2k)`; `None` when no valid
p-value remains. -/
noncomputable def combinedPValue (vs : List ValidEntry) : Option ℝ :=
  if validPs vs = [] then none
  else
    some (1 - chi2CdfEven (2 * (validPs vs).length)
      (-2 * ((validPs vs).map (fun p => Real.log (p : ℝ))).sum))

/-- The enrichment side of `_calculate_celltype_weighted_enrichment`
(lines 1385-1411): `None` when the parsed table is empty (line 1385), when
no row has both fields (line 1392), or when the total weight is zero
(line 1406); otherwise the weighted mean, the squared SE and the count of
categories used. -/
def calcWeightedEnrichment (ds : List EnrichRow) : Option (ℚ × ℚ × Nat) :=
  if ds.isEmpty then none
  else
    let valid := validEnrichments ds
    if valid.isEmpty then none
    else (combineEnrichment valid).map (fun r => (r.1, r.2, valid.length))

/-! ### Results aggregation: Bonferroni correction -/

/-- One aggregated dataset row after the correction step: the combined
p-value, the Bonferroni threshold column and the significance flag. -/
structure AggRow where
  p : Option ℚ
  bonf_threshold : Option ℚ
  bonf_significant : Bool
  deriving DecidableEq

/-- The significance level; the source fixes `alpha = 0.05` (line 546). -/
def aggregatorAlpha : ℚ := 1 / 20

/-- The Bonferroni step of `aggregate_results` (lines 542-549): with more
than one dataset, threshold = alpha / n and a dataset is flagged iff its
p-value is present and strictly below the threshold (a missing p-value is
`NaN` in the frame, and `NaN < t` is false); with at most one dataset the
correction block does not run and no threshold or flag is assigned. -/
def aggregateBonferroni (alpha : ℚ) (batch : List (Option ℚ)) : List AggRow :=
  if 1 < batch.length then
    batch.map (fun p =>
      ⟨p, some (alpha / (batch.length : ℚ)),
        match p with
        | some v => decide (v < alpha / (batch.length : ℚ))
        | none => false⟩)
  else batch.map (fun p => ⟨p, none, false⟩)

/-! ### Concrete inputs used to instantiate the theorems -/

/-- A well-formed report line carrying 98 enrichment columns, the last one
equal to 2.5. -/
def enrichReportLine : String :=
  String.append "Enrichment:"
    (String.append (String.join (List.replicate 97 " 1.0")) " 2.5")

/-- A batch of 8 combined p-values: 0.004, 0.007, five at 0.5, one missing. -/
def batch8 : List (Option ℚ) :=
  [some (1/250), some (7/1000), some (1/2), some (1/2), some (1/2),
   some (1/2), some (1/2), none]

/-! ### Helper lemmas -/

/-- With pairwise-distinct keys in `add`, at most one row of `add` matches a
given key. -/
lemma filter_key_length_le_one (add : List AnnotRow) (k : VariantKey)
    (h : (add.map (fun r => r.key)).Nodup) :
    (add.filter (fun a => decide (a.key = k))).length ≤ 1 := by
  induction add with
  | nil => simp
  | cons a rest ih =>
    rw [List.map_cons, List.nodup_cons] at h
    by_cases hk : a.key = k
    · have hrest : rest.filter (fun a => decide (a.key = k)) = [] := by
        rw [List.filter_eq_nil_iff]
        intro x hx
        simp only [decide_eq_true_eq]
        intro hxk
        exact h.1 (by
          rw [hk, ← hxk]
          exact List.mem_map_of_mem _ hx)
      rw [List.filter_cons_of_pos (by simpa using hk), hrest]
      simp
    · rw [List.filter_cons_of_neg (by simpa using hk)]
      exact ih h.2

/-- Every merged row originates from a background row: it keeps that row's
key, and its values are the background values extended either by zeros (no
key match in `add`) or by the values of a matching `add` row. -/
lemma mergeRows_mem (add : List AnnotRow) (nAdd : Nat) (bg : List AnnotRow)
    (r : AnnotRow) (hr : r ∈ mergeRows add nAdd bg) :
    ∃ b ∈ bg, r.key = b.key ∧
      ((r.values = b.values ++ List.replicate nAdd 0 ∧
          add.filter (fun a => decide (a.key = b.key)) = []) ∨
        ∃ a ∈ add, a.key = b.key ∧ r.values = b.values ++ a.values) := by
  induction bg with
  | nil => simp [mergeRows] at hr
  | cons b bs ih =>
    rw [mergeRows, List.mem_append] at hr
    rcases hr with hr | hr
    · refine ⟨b, List.mem_cons_self _ _, ?_⟩
      cases hfil : add.filter (fun a => decide (a.key = b.key)) with
      | nil =>
        rw [hfil] at hr
        simp only [List.mem_singleton] at hr
        subst hr
        exact ⟨rfl, Or.inl ⟨rfl, rfl⟩⟩
      | cons m ms =>
        rw [hfil] at hr
        rcases List.mem_map.1 hr with ⟨a, ha, hra⟩
        have ha' : a ∈ add.filter (fun a => decide (a.key = b.key)) := by
          rw [hfil]; exact ha
        rcases List.mem_filter.1 ha' with ⟨hamem, hkey⟩
        subst hra
        exact ⟨rfl, Or.inr ⟨a, hamem, by simpa using hkey, rfl⟩⟩
    · rcases ih hr with ⟨b', hb', hkey, hrest⟩
      exact ⟨b', List.mem_cons_of_mem _ hb', hkey, hrest⟩

/-- When no background key occurs in `add`, the merge is exactly the
background table with zero-extended rows. -/
lemma mergeRows_eq_map_of_unmatched (add : List AnnotRow) (nAdd : Nat)
    (bg : List AnnotRow)
    (h : ∀ b ∈ bg, b.key ∉ add.map (fun a => a.key)) :
    mergeRows add nAdd bg =
      bg.map (fun b => ⟨b.key, b.values ++ List.replicate nAdd 0⟩) := by
  induction bg with
  | nil => rfl
  | cons b bs ih =>
    have hb : add.filter (fun a => decide (a.key = b.key)) = [] := by
      rw [List.filter_eq_nil_iff]
      intro a ha
      simp only [decide_eq_true_eq]
      intro hak
      exact h b (List.mem_cons_self _ _) (by
        rw [← hak]
        exact List.mem_map_of_mem _ ha)
    rw [mergeRows, hb, ih (fun x hx => h x (List.mem_cons_of_mem _ hx))]
    rfl

/-! ### Claim C5 -/

/-- C5: for every merge whose addition table has pairwise-distinct
(chromosome, position, identifier) keys, the combined table has exactly as
many rows as the background table — the left join neither drops nor
duplicates background rows. -/
theorem merge_preserves_row_count (add : List AnnotRow) (nAdd : Nat)
    (bg : List AnnotRow) (h : (add.map (fun r => r.key)).Nodup) :
    (mergeRows add nAdd bg).length = bg.length := by
  induction bg with
  | nil => rfl
  | cons b bs ih =>
    have hle := filter_key_length_le_one add b.key h
    rw [mergeRows, List.length_append, ih]
    cases hfil : add.filter (fun a => decide (a.key = b.key)) with
    | nil => simp [Nat.add_comm]
    | cons m ms =>
      rw [hfil] at hle
      simp only [List.length_map, List.length_cons] at hle ⊢
      omega

/-- Witness for C5 at a concrete two-row background and one-row addition. -/
theorem merge_preserves_row_count_witness :
    (mergeRows [⟨⟨1, 100, "rs1"⟩, [1]⟩] 1
      [⟨⟨1, 100, "rs1"⟩, [3]⟩, ⟨⟨1, 200, "rs2"⟩, [4]⟩]).length = 2 :=
  merge_preserves_row_count [⟨⟨1, 100, "rs1"⟩, [1]⟩] 1
    [⟨⟨1, 100, "rs1"⟩, [3]⟩, ⟨⟨1, 200, "rs2"⟩, [4]⟩]
    (by with_unfolding_all decide)

/-! ### Claim C6 -/

/-- C6: in every merge of a background table of row width `m`, a merged row
whose key matches no addition row carries the value 0 in each of the `nAdd`
newly added category columns; and when no background key matches any
addition key at all, the merged table is exactly the background table with
all-zero new columns. -/
theorem merge_unmatched_zero_fill (add : List AnnotRow) (nAdd m : Nat)
    (bg : List AnnotRow) (hW : ∀ b ∈ bg, b.values.length = m) :
    (∀ r ∈ mergeRows add nAdd bg,
        r.key ∉ add.map (fun a => a.key) →
        r.values.drop m = List.replicate nAdd 0) ∧
    ((∀ b ∈ bg, b.key ∉ add.map (fun a => a.key)) →
      mergeRows add nAdd bg =
        bg.map (fun b => ⟨b.key, b.values ++ List.replicate nAdd 0⟩)) := by
  constructor
  · intro r hr hk
    rcases mergeRows_mem add nAdd bg r hr with ⟨b, hb, hkey, hcase⟩
    rcases hcase with ⟨hv, _⟩ | ⟨a, ha, hak, _⟩
    · rw [hv, ← hW b hb, List.drop_left]
    · exact absurd (by
        rw [hkey, ← hak]
        exact List.mem_map_of_mem _ ha) hk
  · exact mergeRows_eq_map_of_unmatched add nAdd bg

/-- Witness for C6 at a concrete background row with no key match. -/
theorem merge_unmatched_zero_fill_witness :
    mergeRows [⟨⟨1, 300, "rs9"⟩, [7]⟩] 2 [⟨⟨1, 100, "rs1"⟩, [3]⟩] =
      ([⟨⟨1, 100, "rs1"⟩, [3]⟩] : List AnnotRow).map
        (fun b => ⟨b.key, b.values ++ List.replicate 2 0⟩) :=
  (merge_unmatched_zero_fill [⟨⟨1, 300, "rs9"⟩, [7]⟩] 2 1
    [⟨⟨1, 100, "rs1"⟩, [3]⟩] (by with_unfolding_all decide)).2
    (by with_unfolding_all decide)

/-! ### Claim C7 -/

/-- C7 counterexample: merging an addition table declared on chromosome 2
onto a background table on chromosome 1 does not fail — no chromosome
comparison and no category-minimum check exist in `_merge_annotations`, and
no AnnotationMismatchError or MergeIncompleteError is defined anywhere in
the source — instead the left join silently produces a normal merged table
whose new category column is zero everywhere. -/
theorem merge_mismatch_counterexample :
    mergeRows [⟨⟨2, 100, "rs1"⟩, [1]⟩] 1 [⟨⟨1, 100, "rs1"⟩, [3]⟩] =
      [⟨⟨1, 100, "rs1"⟩, [3, 0]⟩] := by
  with_unfolding_all decide

/-- C7 amended: the merge never validates the chromosomes and never raises;
when the two tables' chromosomes differ throughout, it returns an ordinary
merged table of the background's length whose added categories are all
zero (the degenerate merge the spec's error was meant to prevent). -/
theorem merge_mismatch_amended (add : List AnnotRow) (nAdd : Nat)
    (bg : List AnnotRow)
    (hchr : ∀ b ∈ bg, ∀ a ∈ add, a.key.chr ≠ b.key.chr) :
    mergeRows add nAdd bg =
      bg.map (fun b => ⟨b.key, b.values ++ List.replicate nAdd 0⟩) ∧
    (mergeRows add nAdd bg).length = bg.length := by
  have h : ∀ b ∈ bg, b.key ∉ add.map (fun a => a.key) := by
    intro b hb hmem
    rcases List.mem_map.1 hmem with ⟨a, ha, hak⟩
    exact hchr b hb a ha (by rw [hak])
  have he := mergeRows_eq_map_of_unmatched add nAdd bg h
  exact ⟨he, by rw [he, List.length_map]⟩

/-- Witness for the amended C7 at a concrete chromosome-mismatched pair. -/
theorem merge_mismatch_amended_witness :
    mergeRows [⟨⟨2, 500, "rs7"⟩, [1]⟩] 1 [⟨⟨1, 500, "rs7"⟩, [2]⟩] =
      ([⟨⟨1, 500, "rs7"⟩, [2]⟩] : List AnnotRow).map
        (fun b => ⟨b.key, b.values ++ List.replicate 1 0⟩) :=
  (merge_mismatch_amended [⟨⟨2, 500, "rs7"⟩, [1]⟩] 1 [⟨⟨1, 500, "rs7"⟩, [2]⟩]
    (by with_unfolding_all decide)).1

/-! ### Claim C8 -/

/-- No coordinate column name is ever in the drop list: both the name-based
tier and the positional fallback exclude coordinate columns. -/
lemma coord_notin_colsToDrop (cols : List String) (c : String)
    (hc : c ∈ coordCols) : c ∉ colsToDrop cols := by
  intro hmem
  rw [colsToDrop] at hmem
  by_cases hbr : brainRelatedCols cols = []
  · rw [if_pos hbr] at hmem
    rcases List.mem_filterMap.1 hmem with ⟨i, _, hi⟩
    cases hget : cols.get? i with
    | none => rw [hget] at hi; exact Option.noConfusion hi
    | some c' =>
      rw [hget] at hi
      by_cases hcoord : c' ∈ coordCols
      · simp [hcoord] at hi
      · simp [hcoord] at hi
        exact hcoord (by rw [hi]; exact hc)
  · rw [if_neg hbr] at hmem
    rcases List.mem_filter.1 hmem with ⟨_, hp⟩
    simp only [Bool.and_eq_true, decide_eq_true_eq] at hp
    exact hp.2 hc

/-- C8: before joining, every background category whose name matches the
case-insensitive conflict-keyword predicate and is not a coordinate column
is dropped; coordinate columns always survive; exactly when the predicate
matches zero columns, the positional fallback drops the (non-coordinate)
categories sitting at the configured indices; and when the predicate does
match, only predicate-matched columns are dropped. -/
theorem conflict_two_tier (cols : List String) :
    (∀ c ∈ cols, isBrainRelated c = true → c ∉ coordCols → c ∉ keepCols cols) ∧
    (∀ c ∈ cols, c ∈ coordCols → c ∈ keepCols cols) ∧
    (brainRelatedCols cols = [] →
      ∀ i ∈ brainIndices, ∀ c, cols.get? i = some c → c ∉ coordCols →
        c ∉ keepCols cols) ∧
    (brainRelatedCols cols ≠ [] →
      ∀ c ∈ cols, c ∉ brainRelatedCols cols → c ∈ keepCols cols) := by
  refine ⟨?_, ?_, ?_, ?_⟩
  · intro c hc hbrain hcoord hkeep
    rcases List.mem_filter.1 hkeep with ⟨_, hp⟩
    simp only [decide_eq_true_eq] at hp
    apply hp
    have hcb : c ∈ brainRelatedCols cols :=
      List.mem_filter.2 ⟨hc, by simp [hbrain, hcoord]⟩
    rw [colsToDrop]
    by_cases hbr : brainRelatedCols cols = []
    · rw [hbr] at hcb; exact absurd hcb (List.not_mem_nil c)
    · rw [if_neg hbr]; exact hcb
  · intro c hc hcoord
    exact List.mem_filter.2 ⟨hc, by
      simp only [decide_eq_true_eq]
      exact coord_notin_colsToDrop cols c hcoord⟩
  · intro hbr i hi c hget hcoord hkeep
    rcases List.mem_filter.1 hkeep with ⟨_, hp⟩
    simp only [decide_eq_true_eq] at hp
    apply hp
    rw [colsToDrop, if_pos hbr]
    exact List.mem_filterMap.2 ⟨i, hi, by rw [hget]; simp [hcoord]⟩
  · intro hbr c hc hnb
    exact List.mem_filter.2 ⟨hc, by
      simp only [decide_eq_true_eq]
      rw [colsToDrop, if_neg hbr]
      exact hnb⟩

/-- Witness for C8: a brain-related column is dropped from a concrete
baseline header. -/
theorem conflict_two_tier_witness :
    "Brain_DNase" ∉ keepCols ["CHR", "BP", "SNP", "CM", "Coding_UCSC", "Brain_DNase"] :=
  (conflict_two_tier ["CHR", "BP", "SNP", "CM", "Coding_UCSC", "Brain_DNase"]).1
    "Brain_DNase" (by decide) (by decide) (by decide)

/-! ### Claim C9 -/

/-- C9: for every report in which no line contains the mandatory
total-heritability label, parsing completes (it is a total function) and
returns both the estimate and its standard error unset —  `none`, not zero
and not an exception. -/
theorem parse_missing_h2_unset (lines : List String)
    (h : ∀ l ∈ lines, occursIn h2Label.toList l.toList = false) :
    parseLdscTotalH2 lines = (none, none) := by
  have hfil : lines.filter (fun l => occursIn h2Label.toList l.toList) = [] := by
    rw [List.filter_eq_nil_iff]
    intro l hl
    simpa using h l hl
  rw [parseLdscTotalH2, hfil]
  rfl

/-- Witness for C9 at a concrete report lacking the heritability line. -/
theorem parse_missing_h2_unset_witness :
    parseLdscTotalH2 ["Reading summary statistics", "Lambda GC: 1.05"] =
      (none, none) :=
  parse_missing_h2_unset ["Reading summary statistics", "Lambda GC: 1.05"]
    (by decide)


/-! ### Claim C1 -/

/-- The extraction fold keeps the value of the last qualifying line: it
equals the parse of the last token collected by `enrichLineTok?`, or the
initial accumulator when no line qualifies. -/
lemma extract_foldl_eq_getLast (lines : List String) (acc : Option ℚ) :
    lines.foldl
      (fun acc line =>
        match enrichLineTok? line with
        | some t => parseDecimal? t
        | none => acc)
      acc =
    match (lines.filterMap enrichLineTok?).getLast? with
    | some t => parseDecimal? t
    | none => acc := by
  induction lines generalizing acc with
  | nil => rfl
  | cons l ls ih =>
    cases h : enrichLineTok? l with
    | none =>
      simp only [List.foldl_cons, List.filterMap_cons, h]
      exact ih acc
    | some t =>
      simp only [List.foldl_cons, List.filterMap_cons, h]
      rw [ih (parseDecimal? t)]
      cases hnil : ls.filterMap enrichLineTok? with
      | nil => rfl
      | cons u us =>
        rw [List.getLast?_cons_cons]
        cases hul : (u :: us).getLast? with
        | none => exact absurd (List.getLast?_eq_none_iff.1 hul) (by simp)
        | some v => rfl

/-- C1 counterexample: a well-formed report that carries the category list
and the Enrichment line, but only two categories.  The claim demands the
last column's value, 2.5; `extract_correct_results` requires at least 98
numeric values on the line (`len(enrichment_values) >= 98`) and extracts
nothing here. -/
theorem enrichment_last_column_counterexample :
    extractEnhancerEnrichment ["Categories: L2_0 L2_1", "Enrichment: 1.5 2.5"] =
        none ∧
      specLastEnrichment ["Categories: L2_0 L2_1", "Enrichment: 1.5 2.5"] =
        some (5/2) := by
  constructor
  · with_unfolding_all decide
  · set_option maxRecDepth 40000 in with_unfolding_all decide

/-- C1 amended: when no Enrichment line carries at least 98 columns the
enrichment is left unset, and whenever the last such qualifying line exists
its LAST column is the extracted value — so the positional invariant holds
for every category count of at least 98, unaffected by the number of
preceding categories beyond that bound. -/
theorem enrichment_extraction_amended (lines : List String) :
    (lines.filterMap enrichLineTok? = [] →
      extractEnhancerEnrichment lines = none) ∧
    (∀ t x, (lines.filterMap enrichLineTok?).getLast? = some t →
      parseDecimal? t = some x → extractEnhancerEnrichment lines = some x) := by
  constructor
  · intro h
    rw [extractEnhancerEnrichment, extract_foldl_eq_getLast, h]
    rfl
  · intro t x ht hx
    rw [extractEnhancerEnrichment, extract_foldl_eq_getLast, ht]
    exact hx

/-- Witness for the amended C1 at a concrete 98-column report line whose
last column is 2.5. -/
theorem enrichment_extraction_amended_witness :
    extractEnhancerEnrichment [enrichReportLine] = some (5/2) :=
  (enrichment_extraction_amended [enrichReportLine]).2 ['2', '.', '5'] (5/2)
    (by set_option maxRecDepth 1000000 in with_unfolding_all decide)
    (by with_unfolding_all decide)


/-! ### Claim C2 -/

/-- The accumulation loop equals the filtered sums: starting from `(a, b)`,
the fold adds the total weight and the weighted enrichment of exactly the
entries with positive standard error. -/
lemma weightSums_foldl (vs : List ValidEntry) (a b : ℚ) :
    vs.foldl
      (fun acc d =>
        if 0 < d.se then (acc.1 + 1 / d.se ^ 2, acc.2 + d.e * (1 / d.se ^ 2))
        else acc)
      (a, b) =
    (a + ((vs.filter (fun d => decide (0 < d.se))).map (fun d => 1 / d.se ^ 2)).sum,
     b + ((vs.filter (fun d => decide (0 < d.se))).map
            (fun d => (1 / d.se ^ 2) * d.e)).sum) := by
  induction vs generalizing a b with
  | nil => simp
  | cons v vs ih =>
    by_cases h : 0 < v.se
    · rw [List.foldl_cons, if_pos h, ih, List.filter_cons_of_pos (by simpa using h)]
      simp only [List.map_cons, List.sum_cons, Prod.mk.injEq]
      constructor <;> ring
    · rw [List.foldl_cons, if_neg h, ih, List.filter_cons_of_neg (by simpa using h)]

/-- C2: whenever at least one category has positive standard error, the
combined enrichment is the inverse-variance weighted mean
Σ(wᵢ·eᵢ)/Σwᵢ with wᵢ = 1/sᵢ², the squared reported standard error is
1/Σwᵢ and the reported standard error is sqrt(1/Σwᵢ); categories with
sᵢ ≤ 0 contribute to neither sum. -/
theorem inverse_variance_combination (vs : List ValidEntry)
    (h : ∃ d ∈ vs, 0 < d.se) :
    combineEnrichment vs =
      some ((((vs.filter (fun d => decide (0 < d.se))).map
                (fun d => (1 / d.se ^ 2) * d.e)).sum) /
              (((vs.filter (fun d => decide (0 < d.se))).map
                (fun d => 1 / d.se ^ 2)).sum),
        1 / (((vs.filter (fun d => decide (0 < d.se))).map
              (fun d => 1 / d.se ^ 2)).sum)) ∧
    combinedSE vs =
      some (Real.sqrt
        (((1 / (((vs.filter (fun d => decide (0 < d.se))).map
            (fun d => 1 / d.se ^ 2)).sum) : ℚ) : ℝ))) := by
  rcases h with ⟨d, hd, hse⟩
  have hws : weightSums vs =
      (((vs.filter (fun d => decide (0 < d.se))).map (fun d => 1 / d.se ^ 2)).sum,
       ((vs.filter (fun d => decide (0 < d.se))).map
          (fun d => (1 / d.se ^ 2) * d.e)).sum) := by
    rw [weightSums, weightSums_foldl]
    simp
  have hWpos :
      0 < ((vs.filter (fun d => decide (0 < d.se))).map (fun d => 1 / d.se ^ 2)).sum := by
    apply List.sum_pos
    · intro x hx
      rcases List.mem_map.1 hx with ⟨d', hd', hxe⟩
      rcases List.mem_filter.1 hd' with ⟨_, hp⟩
      simp only [decide_eq_true_eq] at hp
      rw [← hxe]
      positivity
    · exact List.ne_nil_of_mem
        (List.mem_map_of_mem _ (List.mem_filter.2 ⟨hd, by simpa using hse⟩))
  have hcomb : combineEnrichment vs =
      some ((((vs.filter (fun d => decide (0 < d.se))).map
                (fun d => (1 / d.se ^ 2) * d.e)).sum) /
              (((vs.filter (fun d => decide (0 < d.se))).map
                (fun d => 1 / d.se ^ 2)).sum),
        1 / (((vs.filter (fun d => decide (0 < d.se))).map
              (fun d => 1 / d.se ^ 2)).sum)) := by
    simp only [combineEnrichment, hws]
    rw [if_neg (ne_of_gt hWpos)]
  refine ⟨hcomb, ?_⟩
  rw [combinedSE, hcomb]
  rfl

/-- Witness for C2 at three concrete categories, one with a non-positive
standard error. -/
theorem inverse_variance_combination_witness :
    combineEnrichment [⟨2, 1, none⟩, ⟨4, 1/2, none⟩, ⟨9, -1, none⟩] =
      some (((([⟨2, 1, none⟩, ⟨4, 1/2, none⟩, ⟨9, -1, none⟩] :
                List ValidEntry).filter (fun d => decide (0 < d.se))).map
              (fun d => (1 / d.se ^ 2) * d.e)).sum /
            ((([⟨2, 1, none⟩, ⟨4, 1/2, none⟩, ⟨9, -1, none⟩] :
                List ValidEntry).filter (fun d => decide (0 < d.se))).map
              (fun d => 1 / d.se ^ 2)).sum,
        1 / ((([⟨2, 1, none⟩, ⟨4, 1/2, none⟩, ⟨9, -1, none⟩] :
                List ValidEntry).filter (fun d => decide (0 < d.se))).map
              (fun d => 1 / d.se ^ 2)).sum) ∧
    combinedSE [⟨2, 1, none⟩, ⟨4, 1/2, none⟩, ⟨9, -1, none⟩] =
      some (Real.sqrt
        (((1 / ((([⟨2, 1, none⟩, ⟨4, 1/2, none⟩, ⟨9, -1, none⟩] :
              List ValidEntry).filter (fun d => decide (0 < d.se))).map
              (fun d => 1 / d.se ^ 2)).sum : ℚ) : ℝ))) :=
  inverse_variance_combination [⟨2, 1, none⟩, ⟨4, 1/2, none⟩, ⟨9, -1, none⟩]
    (by with_unfolding_all decide)


/-! ### Claim C10 -/

/-- Every entry of `valid_enrichments` originates from a parsed row with
both fields present. -/
lemma validEnrichments_mem (ds : List EnrichRow) (v : ValidEntry)
    (hv : v ∈ validEnrichments ds) :
    ∃ d ∈ ds, d.enrichment = some v.e ∧ d.enrichment_se = some v.se := by
  rcases List.mem_filterMap.1 hv with ⟨d, hd, hmk⟩
  cases he : d.enrichment with
  | none => rw [he] at hmk; exact absurd hmk (by simp)
  | some e =>
    cases hs : d.enrichment_se with
    | none => rw [he, hs] at hmk; exact absurd hmk (by simp)
    | some s =>
      rw [he, hs] at hmk
      simp only [Option.some.injEq] at hmk
      subst hmk
      exact ⟨d, hd, by rw [he], by rw [hs]⟩

/-- C10: when every parsed category is excluded — its enrichment or its
standard error is missing, or its standard error is non-positive — the
combiner returns `none` (the code's failure signal), not a degenerate
zero/one combined value. -/
theorem combiner_insufficient_categories (ds : List EnrichRow)
    (h : ∀ d ∈ ds, d.enrichment = none ∨
      d.enrichment_se.all (fun s => decide (s ≤ 0)) = true) :
    calcWeightedEnrichment ds = none := by
  simp only [calcWeightedEnrichment]
  by_cases hds : ds.isEmpty
  · rw [if_pos hds]
  · rw [if_neg hds]
    by_cases hval : (validEnrichments ds).isEmpty
    · rw [if_pos hval]
    · rw [if_neg hval]
      have hfil : (validEnrichments ds).filter (fun d => decide (0 < d.se)) = [] := by
        rw [List.filter_eq_nil_iff]
        intro v hv
        rcases validEnrichments_mem ds v hv with ⟨d, hd, he, hs⟩
        rcases h d hd with hnone | hall
        · rw [hnone] at he; exact absurd he (by simp)
        · rw [hs] at hall
          simp only [Option.all_some, decide_eq_true_eq] at hall
          simp [not_lt.2 hall]
      have hws : (weightSums (validEnrichments ds)).1 = 0 := by
        rw [weightSums, weightSums_foldl, hfil]
        simp
      simp [combineEnrichment, hws]

/-- Witness for C10 at a single category whose standard error is zero. -/
theorem combiner_insufficient_categories_witness :
    calcWeightedEnrichment [⟨some 2, some 0, some (1/100)⟩] = none :=
  combiner_insufficient_categories [⟨some 2, some 0, some (1/100)⟩]
    (by with_unfolding_all decide)


/-! ### Claim C4 -/

/-- C4: in every batch of at least two datasets, each aggregated row carries
the Bonferroni threshold alpha/n and is flagged significant exactly when its
p-value is present and strictly below that threshold; for the fixed
alpha = 0.05 of the source and a batch of 8, the threshold is exactly
0.00625 = 1/160, so the dataset at p = 0.004 is flagged and the one at
p = 0.007 is not. -/
theorem bonferroni_threshold_flags (alpha : ℚ) (batch : List (Option ℚ))
    (h : 2 ≤ batch.length) :
    (∀ r ∈ aggregateBonferroni alpha batch,
        r.bonf_threshold = some (alpha / (batch.length : ℚ)) ∧
        (r.bonf_significant = true ↔
          ∃ p, r.p = some p ∧ p < alpha / (batch.length : ℚ))) ∧
    aggregatorAlpha / ((8 : ℕ) : ℚ) = 1 / 160 ∧
    (aggregateBonferroni aggregatorAlpha batch8).map (fun r => r.bonf_significant) =
      [true, false, false, false, false, false, false, false] ∧
    (aggregateBonferroni aggregatorAlpha batch8).map (fun r => r.bonf_threshold) =
      List.replicate 8 (some (1/160)) := by
  refine ⟨?_, ?_, ?_, ?_⟩
  · intro r hr
    rw [aggregateBonferroni, if_pos (by omega)] at hr
    rcases List.mem_map.1 hr with ⟨p, _, hrp⟩
    subst hrp
    cases p with
    | none => exact ⟨rfl, by simp⟩
    | some v => exact ⟨rfl, by simp⟩
  · rw [aggregatorAlpha]
    norm_num
  · with_unfolding_all decide
  · with_unfolding_all decide

/-- Witness for C4: the theorem instantiated at the concrete 8-dataset
batch with alpha = 0.05, projected at its first row. -/
theorem bonferroni_threshold_flags_witness :
    (⟨some (1/250), some (1/160), true⟩ : AggRow).bonf_threshold =
      some ((1/20 : ℚ) / (batch8.length : ℚ)) ∧
    ((⟨some (1/250), some (1/160), true⟩ : AggRow).bonf_significant = true ↔
      ∃ p, (⟨some (1/250), some (1/160), true⟩ : AggRow).p = some p ∧
        p < (1/20 : ℚ) / (batch8.length : ℚ)) :=
  (bonferroni_threshold_flags (1/20) batch8 (by with_unfolding_all decide)).1
    ⟨some (1/250), some (1/160), true⟩ (by with_unfolding_all decide)


/-! ### Claim C3 -/

/-- C3: the combined significance value is Fisher's method over exactly the
valid (present and strictly positive) p-values — the statistic is
-2·Σ ln pᵢ, the degrees of freedom are twice the count of included
p-values, and the combined p-value is the upper-tail chi-square probability
of the statistic; and combining the two p-values 0.05 and 0.05 yields a
value strictly below 0.05. -/
theorem fisher_combined_significance (vs : List ValidEntry)
    (h : validPs vs ≠ []) :
    combinedPValue vs =
      some (chi2SfEven (2 * (validPs vs).length)
        (-2 * (((validPs vs).map (fun p => Real.log (p : ℝ))).sum))) ∧
    ∃ r : ℝ,
      combinedPValue [⟨1, 1, some (1/20)⟩, ⟨1, 1, some (1/20)⟩] = some r ∧
      r < 1/20 := by
  constructor
  · simp only [combinedPValue]
    rw [if_neg h, chi2CdfEven, sub_sub_cancel]
  · have hlog : Real.log ((1/20 : ℚ) : ℝ) = -Real.log 20 := by
      rw [show ((1/20 : ℚ) : ℝ) = 1/20 by norm_num, one_div, Real.log_inv]
    have hL0 : 0 < Real.log 20 := Real.log_pos (by norm_num)
    have hL3 : Real.log 20 < 3 := by
      have h20 : (20:ℝ) < Real.exp 3 := by
        have h1 : (2.7182818283 : ℝ) < Real.exp 1 := Real.exp_one_gt_d9
        have h3 : Real.exp 3 = Real.exp 1 ^ (3:ℕ) := by
          rw [← Real.exp_nat_mul]; norm_num
        rw [h3]
        calc (20:ℝ) < 2.7182818283 ^ (3:ℕ) := by norm_num
        _ < Real.exp 1 ^ (3:ℕ) := by
            apply pow_lt_pow_left₀ h1 (by norm_num) (by norm_num)
      exact (Real.log_lt_iff_lt_exp (by norm_num)).2 h20
    have hexp : Real.exp (-(2 * Real.log 20)) = 1/400 := by
      rw [Real.exp_neg, show (2 * Real.log 20) = Real.log 20 + Real.log 20 by ring,
        Real.exp_add, Real.exp_log (by norm_num : (0:ℝ) < 20)]
      norm_num
    have hv : validPs [⟨1, 1, some (1/20)⟩, ⟨1, 1, some (1/20)⟩] =
        [1/20, 1/20] := by
      with_unfolding_all decide
    refine ⟨Real.exp (-(2 * Real.log 20)) * (1 + 2 * Real.log 20), ?_, ?_⟩
    · simp only [combinedPValue, hv]
      rw [if_neg (by simp)]
      congr 1
      rw [chi2CdfEven, sub_sub_cancel, chi2SfEven]
      simp only [List.map_cons, List.map_nil, List.sum_cons, List.sum_nil, hlog,
        List.length_cons, List.length_nil]
      norm_num
      rw [show ((1:ℝ)/20) = (20:ℝ)⁻¹ from one_div 20, Real.log_inv]
      rw [show List.range 2 = [0, 1] from rfl]
      simp only [List.map_cons, List.map_nil, List.sum_cons, List.sum_nil,
        pow_zero, pow_one, Nat.factorial_zero, Nat.factorial_one, Nat.cast_one]
      ring_nf
    · rw [hexp]
      nlinarith [hL0, hL3]

/-- Witness for C3: the Fisher formula instantiated at one valid p-value. -/
theorem fisher_combined_significance_witness :
    combinedPValue [⟨1, 1, some (1/20)⟩] =
      some (chi2SfEven (2 * (validPs [⟨1, 1, some (1/20)⟩]).length)
        (-2 * (((validPs [⟨1, 1, some (1/20)⟩]).map
          (fun p => Real.log (p : ℝ))).sum))) :=
  (fisher_combined_significance [⟨1, 1, some (1/20)⟩]
    (by with_unfolding_all decide)).1


end LDSC
